import Mathlib

/-!
# Verification of `pycasaxps` (`pycasaxps/plot.py`, class `CasaData`)

Shallow embedding of the `CasaData` class.  A pandas `DataFrame` is modelled
as a `Frame`: a list of row labels (the index) and a list of labelled columns.
Cell values are modelled as integers; every property below is order-theoretic
(comparisons and maxima), so no arithmetic on cell values is needed.
Python operations that can raise (`KeyError`, `IndexError`, `ValueError`)
are modelled as `Option`-valued functions returning `none` on the raising
inputs.
-/

set_option autoImplicit false

/-- Python `c[0:len(p)] == p`: the string `c` starts with `p`. -/
def strStartsWith (c p : String) : Bool := p.data.isPrefixOf c.data

/-- Python `name in comp` on strings: `name` occurs in `comp` as a substring. -/
def strContains (comp name : String) : Bool := decide (name.data <:+: comp.data)

/-- The name `'Cycle{}'.format(i)` built in `CasaData.rename`. -/
def cycleName (i : Nat) : String := "Cycle" ++ toString i

/-- Lookup in a Python dict represented by its list of assignments in
program order: the value of the last assignment to `k`, if any. -/
def dictGet (d : List (String × String)) (k : String) : Option String :=
  d.foldl (fun acc p => if p.1 = k then some p.2 else acc) none

/-- The new label pandas `DataFrame.rename` gives to a column labelled `nm`
under the mapping `d`: `d[nm]` when present, otherwise `nm` itself. -/
def applyRen (d : List (String × String)) (nm : String) : String :=
  (dictGet d nm).getD nm

/-- The assignments `rename[c] = 'Cycle{}'.format(i)` performed by the
`cycles is None` branch of `CasaData.rename`, starting the counter at `i`. -/
def autoAssign : List String → Nat → List (String × String)
  | [], _ => []
  | c :: rest, i => (c, cycleName i) :: autoAssign rest (i + 1)

/-- Python dict insertion `d[k] = v`: overwrite in place when the key is
present, append otherwise. -/
def insertKV (d : List (String × Int × Int)) (k : String) (v : Int × Int) :
    List (String × Int × Int) :=
  if d.any (fun p => p.1 == k) then d.map (fun p => if p.1 == k then (k, v) else p)
  else d ++ [(k, v)]

/-- Boolean-mask row selection: keep the entries of `l` whose mask bit is true. -/
def maskRows {α : Type} (mask : List Bool) (l : List α) : List α :=
  (mask.zip l).filterMap (fun p => if p.1 then some p.2 else none)

/-- Position of the first occurrence of the maximum of the list (pandas
`Series.idxmax` relative to positions); `none` on the empty list, where
pandas raises. -/
def firstMaxIdx : List Int → Option Nat
  | [] => none
  | x :: xs =>
    match firstMaxIdx xs with
    | none => some 0
    | some j => if x < xs.getD j 0 then some (j + 1) else some 0

/-- A pandas `DataFrame`: row labels (the index) and labelled columns. -/
structure Frame where
  index : List Int
  columns : List (String × List Int)
deriving DecidableEq

/-- The column labels of the frame, in order. -/
def Frame.colNames (f : Frame) : List String := f.columns.map Prod.fst

/-- `data[c]`: the first column labelled `c`, `none` when the label is
missing (pandas raises `KeyError`). -/
def Frame.findCol (f : Frame) (c : String) : Option (List Int) :=
  (f.columns.find? (fun p => p.1 == c)).map Prod.snd

/-- `data.drop(names, axis=1)`: remove every column whose label is listed. -/
def Frame.dropCols (f : Frame) (names : List String) : Frame :=
  { f with columns := f.columns.filter (fun p => !(names.contains p.1)) }

/-- `data.rename(d, axis=1)`: relabel every column through the mapping. -/
def Frame.renameCols (f : Frame) (d : List (String × String)) : Frame :=
  { f with columns := f.columns.map (fun p => (applyRen d p.1, p.2)) }

/-- `data.pop(c)`: remove the column labelled `c`; `none` when no column
has that label (pandas raises `KeyError`). -/
def Frame.popCol (f : Frame) (c : String) : Option Frame :=
  if c ∈ f.colNames then
    some { f with columns := f.columns.filter (fun p => !(p.1 == c)) }
  else none

/-- `data[c][lab]`: the value of column `c` at the first row whose index
label is `lab`; `none` when the column or the label is missing. -/
def Frame.lookupLabel (f : Frame) (c : String) (lab : Int) : Option Int :=
  match f.findCol c with
  | none => none
  | some vs => ((f.index.zip vs).find? (fun p => p.1 == lab)).map Prod.snd

/-- `idx = data[comp].idxmax()` followed by
`(data['BE'][idx], data[comp][idx])`, as computed both by the `peaks`
property and by `plot` when annotating a component's peak. -/
def Frame.peakOf (f : Frame) (comp : String) : Option (Int × Int) :=
  match f.findCol comp with
  | none => none
  | some col =>
    match firstMaxIdx col with
    | none => none
    | some i =>
      match f.index.get? i with
      | none => none
      | some lab =>
        match f.lookupLabel "BE" lab, f.lookupLabel comp lab with
        | some x, some y => some (x, y)
        | _, _ => none

/-- The `CasaData` object: the data frame plus the `cycles` and
`components` attributes. -/
structure CasaData where
  data : Frame
  cycles : List String
  components : List String
deriving DecidableEq

/-- The labels `[c for c in self.data.columns if c[0:8] == 'Unnamed:']`. -/
def unnamedCols (f : Frame) : List String :=
  f.colNames.filter (fun c => strStartsWith c "Unnamed:")

/-- The frame after `self.data.drop(unnamed, axis=1, inplace=True)`. -/
def dropUnnamed (f : Frame) : Frame := f.dropCols (unnamedCols f)

/-- `self.cycles = [c for c in self.data.columns if c[0:5] == 'Cycle']`,
computed after the unnamed columns have been dropped. -/
def cyclesOf (f : Frame) : List String :=
  (dropUnnamed f).colNames.filter (fun c => strStartsWith c "Cycle")

/-- The `self.components` computed by `__init__`: the slice of column labels
strictly between the last cycle column and the `Background` column when
`Background` is present, `[]` otherwise.  `none` models the `IndexError`
raised by `self.cycles[-1]` when `Background` is present but no column
starts with `Cycle`. -/
def compsOf (f : Frame) : Option (List String) :=
  let cols := (dropUnnamed f).colNames
  if "Background" ∈ cols then
    match (cyclesOf f).getLast? with
    | none => none
    | some lc =>
      let compstart := cols.findIdx (fun c => c == lc) + 1
      let compend := cols.findIdx (fun c => c == "Background")
      some ((cols.take compend).drop compstart)
  else some []

/-- The mapping contribution and new `components` attribute of
`CasaData.rename` for its `components` argument. -/
def compAssign (cd : CasaData) : Option (List String) → List (String × String) × List String
  | none => ([], cd.components)
  | some l => (cd.components.zip l, l)

/-- `CasaData.rename(components, cycles)`.  `none` models the `IndexError`
raised by `cycles[i]` when an explicit `cycles` list is shorter than
`self.cycles`. -/
def CasaData.renameOp (cd : CasaData) (components cycles : Option (List String)) :
    Option CasaData :=
  match cycles with
  | none =>
    let d1 := autoAssign cd.cycles 0
    let newCycles := (List.range cd.cycles.length).map cycleName
    let pc := compAssign cd components
    some { data := cd.data.renameCols (d1 ++ pc.1), cycles := newCycles,
           components := pc.2 }
  | some l =>
    if cd.cycles.length ≤ l.length then
      let pc := compAssign cd components
      some { data := cd.data.renameCols (cd.cycles.zip l ++ pc.1), cycles := l,
             components := pc.2 }
    else none

/-- `CasaData.__init__` after the `pd.read_csv` call: drop the `Unnamed:`
columns, record cycles and components, rename `B.E.` to `BE`, and when the
`rename` flag is set call `self.rename()`. -/
def mkCasaData (f : Frame) (ren : Bool) : Option CasaData :=
  match compsOf f with
  | none => none
  | some comps =>
    let cd : CasaData :=
      { data := (dropUnnamed f).renameCols [("B.E.", "BE")],
        cycles := cyclesOf f, components := comps }
    if ren then cd.renameOp none none else some cd

/-- `CasaData.crop(be_min, be_max)`: keep the rows whose `BE` value lies
strictly between the bounds.  `none` when there is no `BE` column (pandas
raises `KeyError`). -/
def CasaData.crop (cd : CasaData) (bemin bemax : Int) : Option CasaData :=
  match cd.data.findCol "BE" with
  | none => none
  | some be =>
    let mask := be.map (fun v => decide (bemin < v) && decide (v < bemax))
    some { cd with data := { index := maskRows mask cd.data.index,
                             columns := cd.data.columns.map
                               (fun p => (p.1, maskRows mask p.2)) } }

/-- One iteration of the `CasaData.filter_comps` loop body.  When the search
term does not occur in the component's name, `self.data.pop(comp)` removes
the column (`none` when it is missing, where pandas raises `KeyError`) and
`self.components.drop(comp)` removes the component (`none` when it is
absent, where `Index.drop` raises `KeyError`).  The `components` attribute
is modelled in its constructed pandas `Index` state; once a caller has
replaced it with a plain Python list via `rename(components=...)`, the
source instead raises `AttributeError` at the first removal — the
container's runtime type is not a function of the table state, so that path
lies outside this embedding, and the theorems below only describe calls
that return a result. -/
def filterStep (name : String) (acc : Option CasaData) (comp : String) :
    Option CasaData :=
  match acc with
  | none => none
  | some cd =>
    if strContains comp name then some cd
    else
      match cd.data.popCol comp with
      | none => none
      | some d2 =>
        if comp ∈ cd.components then
          some { data := d2, cycles := cd.cycles,
                 components := cd.components.filter (fun x => !(x == comp)) }
        else none

/-- `CasaData.filter_comps(name)`: iterate over the components recorded at
entry (Python iterates the original `self.components` object); `none` as
soon as one iteration raises. -/
def CasaData.filter_comps (cd : CasaData) (name : String) : Option CasaData :=
  cd.components.foldl (filterStep name) (some cd)

/-- One iteration of the `peaks` loop: `peaks[comp] = (x, y)`, propagating
failure of the per-component computation. -/
def peakStep (cd : CasaData) (acc : Option (List (String × Int × Int)))
    (comp : String) : Option (List (String × Int × Int)) :=
  match acc, cd.data.peakOf comp with
  | some d, some v => some (insertKV d comp v)
  | _, _ => none

/-- The `peaks` property: a dict built by inserting, for each component in
order, the pair of coordinates at the column's first maximum.  `none` when
any per-component computation raises. -/
def CasaData.peaks (cd : CasaData) : Option (List (String × Int × Int)) :=
  cd.components.foldl (peakStep cd) (some [])

/-- The guard `len(self.components) > 0` under which `plot` draws the
`Background` and `Envelope` curves. -/
def CasaData.plotsFit (cd : CasaData) : Bool := decide (0 < cd.components.length)

/-- Splitting a character list on tab characters, accumulating the current
field in reverse. -/
def splitTabAux : List Char → List Char → List String
  | [], acc => [String.mk acc.reverse]
  | ch :: rest, acc =>
    if ch = '\t' then String.mk acc.reverse :: splitTabAux rest []
    else splitTabAux rest (ch :: acc)

/-- Python `line.split('\t')`. -/
def splitTab (s : String) : List String := splitTabAux s.data []

/-- Models `pd.read_csv(file, skiprows=6, sep='\t')` on the file's list of
lines: skip the first six lines, read the next line as the header, and
split every following line on tab characters into a data row (numeric
conversion, quoting and blank-line handling of the csv reader are
abstracted).  `none` when no header line remains. -/
def parseCasa (lines : List String) : Option (List String × List (List String)) :=
  match lines.drop 6 with
  | [] => none
  | header :: rows => some (splitTab header, rows.map splitTab)

/-! ## Generic helper lemmas -/

theorem dictGet_foldl_acc (k : String) :
    ∀ (d : List (String × String)) (acc : Option String),
      List.foldl (fun acc p => if p.1 = k then some p.2 else acc) acc d =
        Option.elim (dictGet d k) acc some := by
  intro d
  induction d with
  | nil => intro acc; simp [dictGet]
  | cons p d ih =>
    intro acc
    have hx : dictGet (p :: d) k =
        Option.elim (dictGet d k) (if p.1 = k then some p.2 else none) some := by
      show List.foldl _ (if p.1 = k then some p.2 else none) d = _
      exact ih _
    show List.foldl _ (if p.1 = k then some p.2 else acc) d = _
    rw [ih, hx]
    cases hdk : dictGet d k with
    | none => by_cases hpk : p.1 = k <;> simp [hpk]
    | some v => simp

theorem dictGet_cons (p : String × String) (d : List (String × String)) (k : String) :
    dictGet (p :: d) k =
      Option.elim (dictGet d k) (if p.1 = k then some p.2 else none) some := by
  show List.foldl _ (if p.1 = k then some p.2 else none) d = _
  exact dictGet_foldl_acc k d _

theorem dictGet_eq_some_mem (d : List (String × String)) (k v : String)
    (h : dictGet d k = some v) : (k, v) ∈ d := by
  induction d with
  | nil => simp [dictGet] at h
  | cons p d ih =>
    rw [dictGet_cons] at h
    cases hdk : dictGet d k with
    | some w =>
      rw [hdk] at h
      simp at h
      exact List.mem_cons_of_mem _ (ih (by rw [hdk, h]))
    | none =>
      rw [hdk] at h
      simp at h
      obtain ⟨h1, h2⟩ := h
      obtain ⟨a, b⟩ := p
      simp only at h1 h2
      rw [h1, h2] at *
      exact List.mem_cons_self _ _

theorem dictGet_eq_none_of_nokey (d : List (String × String)) (k : String)
    (h : ∀ p ∈ d, p.1 ≠ k) : dictGet d k = none := by
  induction d with
  | nil => rfl
  | cons p d ih =>
    rw [dictGet_cons, ih (fun q hq => h q (List.mem_cons_of_mem _ hq)),
      if_neg (h p (List.mem_cons_self _ _))]
    rfl

theorem applyRen_of_nokey (d : List (String × String)) (nm : String)
    (h : ∀ p ∈ d, p.1 ≠ nm) : applyRen d nm = nm := by
  rw [applyRen, dictGet_eq_none_of_nokey d nm h]
  rfl

theorem zip_self_pairs {α : Type} (l : List α) : ∀ p ∈ l.zip l, p.1 = p.2 := by
  induction l with
  | nil => simp
  | cons x xs ih =>
    intro p hp
    rcases List.mem_cons.1 hp with h | h
    · rw [h]
    · exact ih p h

/-! ## Frame-level helper lemmas -/

theorem colNames_dropCols (f : Frame) (names : List String) :
    (f.dropCols names).colNames = f.colNames.filter (fun c => !(names.contains c)) := by
  show (f.columns.filter _).map Prod.fst = (f.columns.map Prod.fst).filter _
  rw [List.filter_map]
  rfl

theorem colNames_renameCols (f : Frame) (d : List (String × String)) :
    (f.renameCols d).colNames = f.colNames.map (applyRen d) := by
  show (f.columns.map _).map Prod.fst = (f.columns.map Prod.fst).map (applyRen d)
  rw [List.map_map, List.map_map]
  rfl

theorem index_renameCols (f : Frame) (d : List (String × String)) :
    (f.renameCols d).index = f.index := rfl

theorem findCol_mapSnd (idx : List Int) (cols : List (String × List Int))
    (g : List Int → List Int) (c : String) :
    Frame.findCol (Frame.mk idx (cols.map (fun p => (p.1, g p.2)))) c =
      Option.map g (Frame.findCol (Frame.mk idx cols) c) := by
  induction cols with
  | nil => rfl
  | cons p rest ih =>
    simp only [List.map_cons, Frame.findCol, List.find?_cons] at ih ⊢
    by_cases hpc : (p.1 == c) = true
    · simp [hpc]
    · simp only [Bool.not_eq_true] at hpc
      simpa [hpc] using ih

/-! ## C7: parsing -/

/-- **C7.** `pd.read_csv(file, skiprows=6, sep='\t')` skips exactly the first
six lines, reads the seventh line (index 6, zero-based) as the header, and
row `k` of the table is line `k + 7` of the file split on tab characters. -/
theorem parse_skiprows_rows (lines : List String) (hdr : List String)
    (rows : List (List String)) (h : parseCasa lines = some (hdr, rows)) :
    hdr = splitTab (lines.getD 6 "") ∧
    rows.length + 7 = lines.length ∧
    ∀ k, k < rows.length → rows.getD k [] = splitTab (lines.getD (k + 7) "") := by
  cases hdrop : lines.drop 6 with
  | nil => rw [parseCasa, hdrop] at h; exact absurd h (by simp)
  | cons hd tl =>
    rw [parseCasa, hdrop] at h
    have hhdr : hdr = splitTab hd := by
      have := congrArg (fun o => Option.map Prod.fst o) h
      simpa using this.symm
    have hrows : rows = tl.map splitTab := by
      have := congrArg (fun o => Option.map Prod.snd o) h
      simpa using this.symm
    have htl : tl = lines.drop 7 := by
      have h1 := List.tail_drop lines 6
      rw [hdrop] at h1
      simpa using h1
    have hd6 : lines[6]? = some hd := by
      have := List.getElem?_drop lines 6 0
      rw [hdrop] at this
      simpa using this.symm
    have hlen7 : 6 < lines.length := by
      have h1 : (lines.drop 6).length = lines.length - 6 := List.length_drop 6 lines
      rw [hdrop] at h1
      simp at h1
      omega
    refine ⟨?_, ?_, ?_⟩
    · rw [hhdr]
      rw [List.getD_eq_getElem?_getD, hd6]
      rfl
    · rw [hrows, List.length_map, htl, List.length_drop]
      have h1 : (lines.drop 6).length = lines.length - 6 := List.length_drop 6 lines
      rw [hdrop] at h1
      simp at h1
      omega
    · intro k hk
      have hk2 : k < tl.length := by
        rw [hrows, List.length_map] at hk
        exact hk
      rw [hrows, List.getD_eq_getElem?_getD, List.getElem?_map]
      have htlk : tl[k]? = lines[7 + k]? := by
        rw [htl]
        exact List.getElem?_drop lines 7 k
      rw [htlk]
      have h7k : 7 + k < lines.length := by
        rw [htl, List.length_drop] at hk2
        omega
      rw [List.getElem?_eq_getElem h7k]
      rw [List.getD_eq_getElem?_getD, show k + 7 = 7 + k from Nat.add_comm k 7,
        List.getElem?_eq_getElem h7k]
      rfl

/-- A concrete nine-line input file. -/
def exLines : List String := ["h1", "h2", "h3", "h4", "h5", "h6", "B.E.\tCycle", "1\t2", "3\t4"]

/-- Header of `exLines` as parsed. -/
def exHdr : List String := ["B.E.", "Cycle"]

/-- Data rows of `exLines` as parsed. -/
def exRows : List (List String) := [["1", "2"], ["3", "4"]]

/-- Concrete witness for `parse_skiprows_rows` on a nine-line file. -/
theorem parse_skiprows_rows_witness :
    parseCasa exLines = some (exHdr, exRows) ∧
      (exHdr = splitTab (exLines.getD 6 "") ∧
        exRows.length + 7 = exLines.length ∧
        ∀ k, k < exRows.length → exRows.getD k [] = splitTab (exLines.getD (k + 7) "")) :=
  ⟨by decide, parse_skiprows_rows exLines exHdr exRows (by decide)⟩

/-! ## C2: crop -/

theorem maskRows_length_le {α : Type} (mask : List Bool) (l : List α) :
    (maskRows mask l).length ≤ l.length :=
  le_trans (List.length_filterMap_le _ _)
    (by rw [List.length_zip]; exact min_le_right _ _)

theorem mem_maskRows_self {α : Type} (p : α → Bool) :
    ∀ (l : List α) (x : α), x ∈ maskRows (l.map p) l → p x = true := by
  intro l
  induction l with
  | nil => intro x hx; simp [maskRows] at hx
  | cons y ys ih =>
    intro x hx
    simp only [maskRows, List.map_cons, List.zip_cons_cons, List.filterMap_cons] at hx
    by_cases hpy : p y = true
    · rw [hpy] at hx
      simp only [if_pos rfl] at hx
      rcases List.mem_cons.1 hx with h | h
      · rw [h, hpy]
      · exact ih x h
    · simp only [Bool.not_eq_true] at hpy
      rw [hpy] at hx
      simp only [if_neg Bool.false_ne_true] at hx
      exact ih x hx

/-- **C2.** After `crop(be_min, be_max)` the row count is at most the row
count before the call, and every remaining `BE` value lies strictly inside
the open interval `(be_min, be_max)`. -/
theorem crop_row_count_and_bounds (cd cd2 : CasaData) (bemin bemax : Int)
    (h : cd.crop bemin bemax = some cd2) :
    cd2.data.index.length ≤ cd.data.index.length ∧
      ∀ col, cd2.data.findCol "BE" = some col → ∀ v ∈ col, bemin < v ∧ v < bemax := by
  cases hbe : cd.data.findCol "BE" with
  | none => rw [CasaData.crop, hbe] at h; exact absurd h (by simp)
  | some be =>
    rw [CasaData.crop, hbe] at h
    simp only [Option.some.injEq] at h
    subst h
    constructor
    · exact maskRows_length_le _ _
    · intro col hcol v hv
      have hmap : Frame.findCol
          (Frame.mk (maskRows (be.map fun v => decide (bemin < v) && decide (v < bemax)) cd.data.index)
            (cd.data.columns.map
              (fun p => (p.1, maskRows (be.map fun v => decide (bemin < v) && decide (v < bemax)) p.2))))
          "BE" = Option.map (maskRows (be.map fun v => decide (bemin < v) && decide (v < bemax)))
            (Frame.findCol cd.data "BE") := by
        have := findCol_mapSnd
          (maskRows (be.map fun v => decide (bemin < v) && decide (v < bemax)) cd.data.index)
          cd.data.columns
          (maskRows (be.map fun v => decide (bemin < v) && decide (v < bemax))) "BE"
        rw [this]
        rfl
      rw [hmap, hbe] at hcol
      simp only [Option.map_some', Option.some.injEq] at hcol
      subst hcol
      have hp := mem_maskRows_self (fun v => decide (bemin < v) && decide (v < bemax)) be v hv
      simp only [Bool.and_eq_true, decide_eq_true_eq] at hp
      exact hp

/-- A concrete five-column `CasaData`, the result of constructing from a
well-formed frame and auto-renaming. -/
def exCasa : CasaData :=
  { data := { index := [0, 1, 2],
              columns := [("BE", [10, 20, 30]), ("Cycle0", [1, 5, 5]),
                          ("c1", [2, 7, 7]), ("Background", [0, 0, 0]),
                          ("Envelope", [3, 8, 8])] },
    cycles := ["Cycle0"], components := ["c1"] }

/-- The result of `exCasa.crop 15 35`. -/
def exCropped : CasaData :=
  { data := { index := [1, 2],
              columns := [("BE", [20, 30]), ("Cycle0", [5, 5]),
                          ("c1", [7, 7]), ("Background", [0, 0]),
                          ("Envelope", [8, 8])] },
    cycles := ["Cycle0"], components := ["c1"] }

/-- Concrete witness for `crop_row_count_and_bounds`. -/
theorem crop_row_count_and_bounds_witness :
    exCasa.crop 15 35 = some exCropped ∧
      (exCropped.data.index.length ≤ exCasa.data.index.length ∧
        ∀ col, exCropped.data.findCol "BE" = some col → ∀ v ∈ col, 15 < v ∧ v < 35) :=
  ⟨by decide, crop_row_count_and_bounds exCasa exCropped 15 35 (by decide)⟩

/-! ## C4: renaming with the current names is the identity on column labels -/

theorem applyRen_self_pairs (d : List (String × String)) (nm : String)
    (h : ∀ p ∈ d, p.1 = p.2) : applyRen d nm = nm := by
  rw [applyRen]
  cases hd : dictGet d nm with
  | none => rfl
  | some v =>
    have hmem := dictGet_eq_some_mem d nm v hd
    have := h _ hmem
    simp only at this
    rw [this.symm]
    rfl

/-- **C4.** Calling `rename` with `cycles` equal to the current cycle names
and `components` equal to the current component names succeeds and leaves
the column labels of the data table unchanged (hence also their set). -/
theorem rename_noop_identity (cd : CasaData) :
    ∃ cd2, cd.renameOp (some cd.components) (some cd.cycles) = some cd2 ∧
      cd2.data.colNames = cd.data.colNames ∧
      cd2.cycles = cd.cycles ∧ cd2.components = cd.components := by
  have hop : cd.renameOp (some cd.components) (some cd.cycles) =
      some { data := cd.data.renameCols
               (cd.cycles.zip cd.cycles ++ cd.components.zip cd.components),
             cycles := cd.cycles, components := cd.components } := by
    rw [CasaData.renameOp]
    rw [if_pos (le_refl _)]
    rfl
  refine ⟨_, hop, ?_, rfl, rfl⟩
  · rw [colNames_renameCols]
    have hpairs : ∀ p ∈ cd.cycles.zip cd.cycles ++ cd.components.zip cd.components,
        p.1 = p.2 := by
      intro p hp
      rcases List.mem_append.1 hp with h | h
      · exact zip_self_pairs _ p h
      · exact zip_self_pairs _ p h
    calc cd.data.colNames.map (applyRen _)
        = cd.data.colNames.map id := List.map_congr_left
          (fun nm _ => applyRen_self_pairs _ nm hpairs)
      _ = cd.data.colNames := List.map_id _

/-! ## C6: files without a `Background` column -/

theorem background_not_in_dropUnnamed (f : Frame) (h : "Background" ∉ f.colNames) :
    "Background" ∉ (dropUnnamed f).colNames := by
  rw [dropUnnamed, colNames_dropCols]
  intro hmem
  exact h (List.mem_filter.1 hmem).1

/-- **C6.** When the input has no `Background` column, construction succeeds
for either value of the `rename` flag, `components` is the empty list, and
the guard under which `plot` draws the background and envelope is false. -/
theorem no_background_empty_components (f : Frame) (ren : Bool)
    (h : "Background" ∉ f.colNames) :
    ∃ cd, mkCasaData f ren = some cd ∧ cd.components = [] ∧ cd.plotsFit = false := by
  have hbg := background_not_in_dropUnnamed f h
  have hcomps : compsOf f = some [] := by
    simp only [compsOf]
    rw [if_neg hbg]
  unfold mkCasaData
  rw [hcomps]
  cases ren with
  | false => exact ⟨_, rfl, rfl, rfl⟩
  | true => exact ⟨_, rfl, rfl, rfl⟩

/-- A concrete frame without a `Background` column. -/
def exNoBg : Frame := { index := [0], columns := [("B.E.", [5]), ("Cycle A", [1])] }

/-- Concrete witness for `no_background_empty_components`. -/
theorem no_background_empty_components_witness :
    ("Background" ∉ exNoBg.colNames) ∧
      ∃ cd, mkCasaData exNoBg true = some cd ∧ cd.components = [] ∧ cd.plotsFit = false :=
  ⟨by decide, no_background_empty_components exNoBg true (by decide)⟩

/-! ## C8: the constructor scrubs `Unnamed:` and `B.E.` labels -/

theorem mem_dropUnnamed_not_unnamed (f : Frame) :
    ∀ c ∈ (dropUnnamed f).colNames, strStartsWith c "Unnamed:" = false := by
  intro c hc
  rw [dropUnnamed, colNames_dropCols] at hc
  obtain ⟨hcmem, hpred⟩ := List.mem_filter.1 hc
  by_contra hun
  simp only [Bool.not_eq_false] at hun
  have hmem2 : c ∈ unnamedCols f := List.mem_filter.2 ⟨hcmem, hun⟩
  have hcont : (unnamedCols f).contains c = true := by
    show List.elem c (unnamedCols f) = true
    exact List.elem_iff.2 hmem2
  rw [hcont] at hpred
  simp at hpred

theorem applyRen_single (a b nm : String) :
    applyRen [(a, b)] nm = if a = nm then b else nm := by
  rw [applyRen]
  show (if a = nm then some b else none).getD nm = _
  by_cases h : a = nm <;> simp [h]

theorem mem_beRenamed_scrubbed (f : Frame) :
    ∀ c ∈ ((dropUnnamed f).renameCols [("B.E.", "BE")]).colNames,
      strStartsWith c "Unnamed:" = false ∧ c ≠ "B.E." := by
  intro c hc
  rw [colNames_renameCols] at hc
  obtain ⟨a, ha, hEq⟩ := List.mem_map.1 hc
  rw [applyRen_single] at hEq
  by_cases hab : "B.E." = a
  · rw [if_pos hab] at hEq
    subst hEq
    exact ⟨by decide, by decide⟩
  · rw [if_neg hab] at hEq
    subst hEq
    exact ⟨mem_dropUnnamed_not_unnamed f a ha, fun hh => hab hh.symm⟩

theorem not_unnamed_cycleName (i : Nat) :
    strStartsWith (cycleName i) "Unnamed:" = false := by
  rw [strStartsWith]
  rw [show ("Unnamed:".data) = 'U' :: 'n' :: 'n' :: 'a' :: 'm' :: 'e' :: 'd' :: ':' :: [] from rfl]
  rw [show (cycleName i).data = 'C' :: 'y' :: 'c' :: 'l' :: 'e' :: (toString i).data from rfl]
  simp [List.isPrefixOf]

theorem cycleName_ne_BE (i : Nat) : cycleName i ≠ "B.E." := by
  intro h
  have hd := congrArg String.data h
  rw [show (cycleName i).data = 'C' :: 'y' :: 'c' :: 'l' :: 'e' :: (toString i).data from rfl,
    show ("B.E.".data) = 'B' :: '.' :: 'E' :: '.' :: [] from rfl] at hd
  injection hd with h1 _
  exact absurd h1 (by decide)

theorem mem_autoAssign_parts :
    ∀ (cs : List String) (s : Nat) (p : String × String),
      p ∈ autoAssign cs s → p.1 ∈ cs ∧ ∃ j, p.2 = cycleName j := by
  intro cs
  induction cs with
  | nil => intro s p hp; simp [autoAssign] at hp
  | cons c rest ih =>
    intro s p hp
    rw [autoAssign] at hp
    rcases List.mem_cons.1 hp with h | h
    · subst h; exact ⟨List.mem_cons_self _ _, s, rfl⟩
    · obtain ⟨h1, h2⟩ := ih (s + 1) p h
      exact ⟨List.mem_cons_of_mem _ h1, h2⟩

theorem applyRen_auto_cases (cs : List String) (nm : String) :
    applyRen (autoAssign cs 0 ++ []) nm = nm ∨
      ∃ j, applyRen (autoAssign cs 0 ++ []) nm = cycleName j := by
  rw [List.append_nil]
  cases hd : dictGet (autoAssign cs 0) nm with
  | none => left; rw [applyRen, hd]; rfl
  | some v =>
    right
    obtain ⟨_, j, hj⟩ := mem_autoAssign_parts cs 0 (nm, v) (dictGet_eq_some_mem _ _ _ hd)
    refine ⟨j, ?_⟩
    rw [applyRen, hd]
    simpa using hj

/-- **C8.** Whatever the `rename` flag, no column label of a constructed
`CasaData` starts with `Unnamed:` and none equals `B.E.`. -/
theorem constructor_scrubbed_labels (f : Frame) (ren : Bool) (cd : CasaData)
    (hmk : mkCasaData f ren = some cd) :
    ∀ c ∈ cd.data.colNames, strStartsWith c "Unnamed:" = false ∧ c ≠ "B.E." := by
  cases hc : compsOf f with
  | none =>
    unfold mkCasaData at hmk
    rw [hc] at hmk
    exact absurd hmk (by simp)
  | some comps =>
    unfold mkCasaData at hmk
    rw [hc] at hmk
    cases ren with
    | false =>
      have h2 : some { data := (dropUnnamed f).renameCols [("B.E.", "BE")],
                       cycles := cyclesOf f, components := comps } = some cd := hmk
      have h3 := Option.some.inj h2
      rw [← h3]
      exact mem_beRenamed_scrubbed f
    | true =>
      have h2 : some { data := ((dropUnnamed f).renameCols [("B.E.", "BE")]).renameCols
                         (autoAssign (cyclesOf f) 0 ++ []),
                       cycles := (List.range (cyclesOf f).length).map cycleName,
                       components := comps } = some cd := hmk
      have h3 := Option.some.inj h2
      rw [← h3]
      intro c hcmem
      rw [colNames_renameCols] at hcmem
      obtain ⟨b, hb, hEq⟩ := List.mem_map.1 hcmem
      rcases applyRen_auto_cases (cyclesOf f) b with hid | ⟨j, hcyc⟩
      · rw [hid] at hEq
        rw [← hEq]
        exact mem_beRenamed_scrubbed f b hb
      · rw [hcyc] at hEq
        rw [← hEq]
        exact ⟨not_unnamed_cycleName j, cycleName_ne_BE j⟩

/-- A concrete raw frame with an extra `Unnamed:` column and a `B.E.`
column; constructing from it yields `exCasa`. -/
def exRawFrame : Frame :=
  { index := [0, 1, 2],
    columns := [("B.E.", [10, 20, 30]), ("Cycle A", [1, 5, 5]), ("c1", [2, 7, 7]),
                ("Background", [0, 0, 0]), ("Envelope", [3, 8, 8]),
                ("Unnamed: 5", [0, 0, 0])] }

/-- Concrete witness for `constructor_scrubbed_labels`. -/
theorem constructor_scrubbed_labels_witness :
    mkCasaData exRawFrame true = some exCasa ∧
      ∀ c ∈ exCasa.data.colNames, strStartsWith c "Unnamed:" = false ∧ c ≠ "B.E." :=
  ⟨by decide, constructor_scrubbed_labels exRawFrame true exCasa (by decide)⟩


/-! ## C9: automatic cycle renaming -/

theorem dictGet_autoAssign (nm : String) :
    ∀ (cs : List String) (s : Nat), cs.Nodup →
      dictGet (autoAssign cs s) nm =
        if nm ∈ cs then some (cycleName (s + cs.findIdx (fun c => c == nm))) else none := by
  intro cs
  induction cs with
  | nil => intro s _; simp [autoAssign, dictGet]
  | cons c rest ih =>
    intro s hnd
    have hcr : c ∉ rest := (List.nodup_cons.1 hnd).1
    have hrest := (List.nodup_cons.1 hnd).2
    rw [autoAssign, dictGet_cons, ih (s + 1) hrest]
    dsimp only
    by_cases hmem : nm ∈ rest
    · have hcnm : (c == nm) = false := beq_eq_false_iff_ne.2 (fun h => hcr (h ▸ hmem))
      rw [if_pos hmem, if_pos (List.mem_cons_of_mem c hmem), List.findIdx_cons, hcnm]
      simp only [cond_false, Option.elim]
      congr 2
      omega
    · rw [if_neg hmem]
      by_cases hceq : c = nm
      · rw [if_pos hceq, if_pos (by rw [hceq]; exact List.mem_cons_self _ _),
          List.findIdx_cons, show (c == nm) = true from beq_iff_eq.2 hceq]
        simp only [cond_true, Nat.add_zero, Option.elim]
      · rw [if_neg hceq, if_neg (by
          intro hm
          rcases List.mem_cons.1 hm with h | h
          · exact hceq h.symm
          · exact hmem h)]
        rfl

/-- **C9.** `rename` with `cycles=None` (also reached by the constructor when
its `rename` flag is true) records the cycle names `Cycle0 … Cycle{n-1}` in
order, numbering from 0, and relabels the data column holding the `i`-th old
cycle name to `Cycle{i}`. -/
theorem rename_auto_cycle_names (cd : CasaData) (hnd : cd.cycles.Nodup) :
    ∃ cd2, cd.renameOp none none = some cd2 ∧
      cd2.cycles = (List.range cd.cycles.length).map cycleName ∧
      cd2.data.colNames = cd.data.colNames.map (fun nm =>
        if nm ∈ cd.cycles then cycleName (cd.cycles.findIdx (fun c => c == nm)) else nm) := by
  refine ⟨_, rfl, rfl, ?_⟩
  rw [show ((compAssign cd none).1 : List (String × String)) = [] from rfl, List.append_nil]
  rw [colNames_renameCols]
  apply List.map_congr_left
  intro nm _
  rw [applyRen, dictGet_autoAssign nm cd.cycles 0 hnd]
  by_cases h : nm ∈ cd.cycles
  · rw [if_pos h, if_pos h]
    simp
  · rw [if_neg h, if_neg h]
    rfl

/-- A `CasaData` with two un-renamed cycle columns. -/
def exPre : CasaData :=
  { data := { index := [0],
              columns := [("BE", [1]), ("Cycle A", [2]), ("Cycle B", [3])] },
    cycles := ["Cycle A", "Cycle B"], components := [] }

/-- Concrete witness for `rename_auto_cycle_names`. -/
theorem rename_auto_cycle_names_witness :
    exPre.cycles.Nodup ∧
      ∃ cd2, exPre.renameOp none none = some cd2 ∧
        cd2.cycles = (List.range exPre.cycles.length).map cycleName ∧
        cd2.data.colNames = exPre.data.colNames.map (fun nm =>
          if nm ∈ exPre.cycles then cycleName (exPre.cycles.findIdx (fun c => c == nm))
          else nm) :=
  ⟨by decide, rename_auto_cycle_names exPre (by decide)⟩

/-! ## C3: component filtering

The claim as stated is false: `filter_comps` only pops *component* columns,
so columns that are not components (the `BE`, cycle, `Background` and
`Envelope` columns) survive even when their names do not contain the search
term.  The exact behaviour of every call that completes without raising is
proved below. -/

theorem foldl_filterStep_none (name : String) :
    ∀ C : List String, List.foldl (filterStep name) none C = none := by
  intro C
  induction C with
  | nil => rfl
  | cons c C2 ih =>
    rw [List.foldl_cons]
    exact ih

theorem popCol_eq_some (f : Frame) (c : String) (d2 : Frame)
    (h : f.popCol c = some d2) :
    d2 = { index := f.index, columns := f.columns.filter (fun p => !(p.1 == c)) } := by
  rw [Frame.popCol] at h
  by_cases hm : c ∈ f.colNames
  · rw [if_pos hm] at h
    exact (Option.some.inj h).symm
  · rw [if_neg hm] at h
    exact absurd h (by simp)

theorem filterStep_matching (name : String) (cd : CasaData) (c : String)
    (hc : strContains c name = true) : filterStep name (some cd) c = some cd := by
  show (if strContains c name then some cd else _) = some cd
  rw [if_pos hc]

theorem filter_comps_foldl (name : String) :
    ∀ (C : List String) (cd cd2 : CasaData),
      List.foldl (filterStep name) (some cd) C = some cd2 →
      cd2 = ⟨{ index := cd.data.index,
               columns := cd.data.columns.filter
                 (fun p => strContains p.1 name || !(C.contains p.1)) },
             cd.cycles,
             cd.components.filter (fun x => strContains x name || !(C.contains x))⟩ := by
  intro C
  induction C with
  | nil =>
    intro cd cd2 h
    rw [List.foldl_nil] at h
    rw [← Option.some.inj h]
    simp only [List.contains_nil, Bool.not_false, Bool.or_true, List.filter_true]
  | cons c C2 ih =>
    intro cd cd2 h
    rw [List.foldl_cons] at h
    by_cases hc : strContains c name = true
    · rw [filterStep_matching name cd c hc] at h
      rw [ih cd cd2 h]
      have hpt : ∀ x : String,
          (strContains x name || !(C2.contains x)) =
            (strContains x name || !((c :: C2).contains x)) := by
        intro x
        rcases Bool.eq_false_or_eq_true (x == c) with hxc | hxc
        · have hxe : x = c := eq_of_beq hxc
          subst hxe
          simp [hc, List.contains_cons]
        · simp [List.contains_cons, hxc, ne_of_beq_false hxc]
      congr 1
      · congr 1
        exact List.filter_congr (fun p _ => hpt p.1)
      · exact List.filter_congr (fun x _ => hpt x)
    · simp only [Bool.not_eq_true] at hc
      cases hpop : cd.data.popCol c with
      | none =>
        have hstep : filterStep name (some cd) c = none := by
          show (if strContains c name then some cd else _) = none
          rw [if_neg (by rw [hc]; exact Bool.false_ne_true)]
          simp only [hpop]
        rw [hstep, foldl_filterStep_none] at h
        exact absurd h (by simp)
      | some d2 =>
        by_cases hmem : c ∈ cd.components
        · have hd2 := popCol_eq_some cd.data c d2 hpop
          have hstep : filterStep name (some cd) c =
              some ⟨{ index := cd.data.index,
                      columns := cd.data.columns.filter (fun p => !(p.1 == c)) },
                    cd.cycles, cd.components.filter (fun x => !(x == c))⟩ := by
            show (if strContains c name then some cd else _) = _
            rw [if_neg (by rw [hc]; exact Bool.false_ne_true)]
            simp only [hpop, hd2]
            rw [if_pos hmem]
          rw [hstep] at h
          rw [ih _ cd2 h]
          dsimp only
          have hpt : ∀ x : String,
              ((strContains x name || !(C2.contains x)) && !(x == c)) =
                (strContains x name || !((c :: C2).contains x)) := by
            intro x
            rcases Bool.eq_false_or_eq_true (x == c) with hxc | hxc
            · have hxe : x = c := eq_of_beq hxc
              subst hxe
              simp [hc, List.contains_cons]
            · simp [List.contains_cons, hxc, ne_of_beq_false hxc]
          rw [List.filter_filter, List.filter_filter]
          congr 1
          · congr 1
            exact List.filter_congr (fun p _ => hpt p.1)
          · exact List.filter_congr (fun x _ => hpt x)
        · have hstep : filterStep name (some cd) c = none := by
            show (if strContains c name then some cd else _) = none
            rw [if_neg (by rw [hc]; exact Bool.false_ne_true)]
            simp only [hpop]
            rw [if_neg hmem]
          rw [hstep, foldl_filterStep_none] at h
          exact absurd h (by simp)

/-- **C3, counterexample.** On `exCasa`, filtering components by `"c1"`
completes without raising and keeps the `BE`, `Cycle0`, `Background` and
`Envelope` columns even though their names do not contain `"c1"`: the
remaining columns are not exactly the columns whose name contains the
search string. -/
theorem filter_comps_claim_counterexample :
    exCasa.filter_comps "c1" = some exCasa ∧
      exCasa.data.colNames ≠
        exCasa.data.colNames.filter (fun c => strContains c "c1") := by decide

/-- **C3, amended.** Whenever `filter_comps(name)` completes without
raising, the remaining components are exactly the original components whose
name contains `name`, and the data table keeps exactly the columns that
either contain `name` or are not component columns; the index and the
cycles are untouched. -/
theorem filter_comps_exact (cd cd2 : CasaData) (name : String)
    (h : cd.filter_comps name = some cd2) :
    cd2.components = cd.components.filter (fun c => strContains c name) ∧
    cd2.data.colNames = cd.data.colNames.filter
      (fun c => strContains c name || !(cd.components.contains c)) ∧
    cd2.data.index = cd.data.index ∧
    cd2.cycles = cd.cycles := by
  have hmain := filter_comps_foldl name cd.components cd cd2 h
  refine ⟨?_, ?_, ?_, ?_⟩
  · rw [hmain]
    dsimp only
    apply List.filter_congr
    intro x hx
    have hcx : cd.components.contains x = true := List.elem_iff.2 hx
    rw [hcx]
    simp
  · rw [hmain]
    rw [Frame.colNames, Frame.colNames]
    dsimp only
    rw [List.filter_map]
    rfl
  · rw [hmain]
  · rw [hmain]

/-- A `CasaData` with two components of which one does not contain the
search term `"A"`. -/
def exFilter : CasaData :=
  { data := { index := [0, 1],
              columns := [("BE", [10, 20]), ("Cycle0", [1, 2]), ("A1", [3, 4]),
                          ("B2", [5, 6]), ("Background", [0, 0]),
                          ("Envelope", [9, 9])] },
    cycles := ["Cycle0"], components := ["A1", "B2"] }

/-- The result of `exFilter.filter_comps "A"`: the `B2` column is popped and
the component dropped. -/
def exFilterRes : CasaData :=
  { data := { index := [0, 1],
              columns := [("BE", [10, 20]), ("Cycle0", [1, 2]), ("A1", [3, 4]),
                          ("Background", [0, 0]), ("Envelope", [9, 9])] },
    cycles := ["Cycle0"], components := ["A1"] }

/-- Concrete witness for `filter_comps_exact`, with an actual removal. -/
theorem filter_comps_exact_witness :
    exFilter.filter_comps "A" = some exFilterRes ∧
      (exFilterRes.components = exFilter.components.filter (fun c => strContains c "A") ∧
        exFilterRes.data.colNames = exFilter.data.colNames.filter
          (fun c => strContains c "A" || !(exFilter.components.contains c)) ∧
        exFilterRes.data.index = exFilter.data.index ∧
        exFilterRes.cycles = exFilter.cycles) :=
  ⟨by decide, filter_comps_exact exFilter exFilterRes "A" (by decide)⟩

/-! ## C5: peak position is the first occurrence of the column maximum -/

theorem firstMaxIdx_spec :
    ∀ (l : List Int), l ≠ [] →
      ∃ i, firstMaxIdx l = some i ∧ i < l.length ∧
        (∀ j, j < l.length → l.getD j 0 ≤ l.getD i 0) ∧
        (∀ j, j < i → l.getD j 0 < l.getD i 0) := by
  intro l
  induction l with
  | nil => intro h; exact absurd rfl h
  | cons x xs ih =>
    intro _
    by_cases hxs : xs = []
    · subst hxs
      refine ⟨0, rfl, by simp, ?_, ?_⟩
      · intro j hj
        simp only [List.length_cons, List.length_nil] at hj
        have hj0 : j = 0 := by omega
        subst hj0
        exact le_refl _
      · intro j hj
        omega
    · obtain ⟨j, hj, hjlen, hmax, hfirst⟩ := ih hxs
      rw [firstMaxIdx, hj]
      by_cases hlt : x < xs.getD j 0
      · refine ⟨j + 1, by
          show (if x < xs.getD j 0 then some (j + 1) else some 0) = some (j + 1)
          rw [if_pos hlt], by simpa using hjlen, ?_, ?_⟩
        · intro k hk
          cases k with
          | zero => rw [List.getD_cons_zero, List.getD_cons_succ]; exact le_of_lt hlt
          | succ k =>
            rw [List.getD_cons_succ, List.getD_cons_succ]
            exact hmax k (by simpa using hk)
        · intro k hk
          cases k with
          | zero => rw [List.getD_cons_zero, List.getD_cons_succ]; exact hlt
          | succ k =>
            rw [List.getD_cons_succ, List.getD_cons_succ]
            exact hfirst k (by omega)
      · refine ⟨0, by
          show (if x < xs.getD j 0 then some (j + 1) else some 0) = some 0
          rw [if_neg hlt], by simp, ?_, ?_⟩
        · intro k hk
          cases k with
          | zero => exact le_refl _
          | succ k =>
            rw [List.getD_cons_zero, List.getD_cons_succ]
            exact le_trans (hmax k (by simpa using hk)) (le_of_not_lt hlt)
        · intro k hk
          omega

theorem find_zip_nodup :
    ∀ (idxl : List Int) (vs : List Int) (i : Nat), idxl.Nodup →
      i < idxl.length → idxl.length ≤ vs.length →
      (idxl.zip vs).find? (fun p => p.1 == idxl.getD i 0) =
        some (idxl.getD i 0, vs.getD i 0) := by
  intro idxl
  induction idxl with
  | nil => intro vs i _ hi _; simp at hi
  | cons a rest ih =>
    intro vs i hnd hi hlen
    cases vs with
    | nil => simp at hlen
    | cons v vs2 =>
      rw [List.zip_cons_cons, List.find?_cons]
      cases i with
      | zero =>
        rw [List.getD_cons_zero, List.getD_cons_zero]
        simp
      | succ k =>
        rw [List.getD_cons_succ, List.getD_cons_succ]
        have hkr : k < rest.length := by simpa using hi
        have hkmem : rest.getD k 0 ∈ rest := by
          rw [List.getD_eq_getElem?_getD, List.getElem?_eq_getElem hkr]
          exact List.getElem_mem hkr
        have ha : (a == rest.getD k 0) = false :=
          beq_eq_false_iff_ne.2 (fun h => (List.nodup_cons.1 hnd).1 (h ▸ hkmem))
        rw [ha]
        simp only [cond_false]
        exact ih vs2 k (List.nodup_cons.1 hnd).2 hkr (by simpa using hlen)

theorem get_index_some (l : List Int) (i : Nat) (h : i < l.length) :
    l.get? i = some (l.getD i 0) := by
  rw [List.get?_eq_getElem?, List.getD_eq_getElem?_getD, List.getElem?_eq_getElem h]
  rfl

/-- **C5.** On a frame with distinct row labels, the peak computed for a
component column (by `peaks` and by `plot`, both via `Frame.peakOf`) is the
pair of the `BE` value and the column value at row `i`, where `i` is the
first row position attaining the column's maximum: every value is at most
the value at `i` and every strictly earlier value is strictly smaller. -/
theorem peakOf_first_max (f : Frame) (comp : String) (col be : List Int)
    (hnd : f.index.Nodup)
    (hcol : f.findCol comp = some col) (hbe : f.findCol "BE" = some be)
    (hlen : col.length = f.index.length) (hbelen : be.length = f.index.length)
    (hne : col ≠ []) :
    ∃ i, i < col.length ∧
      f.peakOf comp = some (be.getD i 0, col.getD i 0) ∧
      (∀ j, j < col.length → col.getD j 0 ≤ col.getD i 0) ∧
      (∀ j, j < i → col.getD j 0 < col.getD i 0) := by
  obtain ⟨i, hfm, hilen, hmax, hfirst⟩ := firstMaxIdx_spec col hne
  have hi2 : i < f.index.length := by rw [← hlen]; exact hilen
  have hidx : f.index.get? i = some (f.index.getD i 0) := get_index_some _ _ hi2
  have hbeLook : f.lookupLabel "BE" (f.index.getD i 0) = some (be.getD i 0) := by
    simp only [Frame.lookupLabel, hbe]
    rw [find_zip_nodup f.index be i hnd hi2 (le_of_eq hbelen.symm)]
    rfl
  have hcompLook : f.lookupLabel comp (f.index.getD i 0) = some (col.getD i 0) := by
    simp only [Frame.lookupLabel, hcol]
    rw [find_zip_nodup f.index col i hnd hi2 (le_of_eq hlen.symm)]
    rfl
  refine ⟨i, hilen, ?_, hmax, hfirst⟩
  simp only [Frame.peakOf, hcol, hfm, hidx, hbeLook, hcompLook]

/-- A frame whose `P` column attains its maximum at two rows; the peak must
use the earlier one. -/
def exPeakFrame : Frame :=
  { index := [0, 1, 2], columns := [("BE", [10, 20, 30]), ("P", [7, 7, 3])] }

/-- Concrete witness for `peakOf_first_max` on a column with a tied maximum. -/
theorem peakOf_first_max_witness :
    exPeakFrame.index.Nodup ∧
      ∃ i, i < ([7, 7, 3] : List Int).length ∧
        exPeakFrame.peakOf "P" =
          some (([10, 20, 30] : List Int).getD i 0, ([7, 7, 3] : List Int).getD i 0) ∧
        (∀ j, j < ([7, 7, 3] : List Int).length →
          ([7, 7, 3] : List Int).getD j 0 ≤ ([7, 7, 3] : List Int).getD i 0) ∧
        (∀ j, j < i → ([7, 7, 3] : List Int).getD j 0 < ([7, 7, 3] : List Int).getD i 0) :=
  ⟨by decide, peakOf_first_max exPeakFrame "P" [7, 7, 3] [10, 20, 30]
    (by decide) (by decide) (by decide) (by decide) (by decide) (by decide)⟩

/-! ## C1: one peak entry per component, keyed by live column labels -/

theorem comps_subset (f : Frame) (comps : List String) (h : compsOf f = some comps) :
    comps ⊆ (dropUnnamed f).colNames := by
  simp only [compsOf] at h
  by_cases hbg : "Background" ∈ (dropUnnamed f).colNames
  · rw [if_pos hbg] at h
    cases hlast : (cyclesOf f).getLast? with
    | none => rw [hlast] at h; exact absurd h (by simp)
    | some lc =>
      rw [hlast] at h
      simp only [Option.some.injEq] at h
      subst h
      intro c hc
      exact List.take_subset _ _ (List.drop_subset _ _ hc)
  · rw [if_neg hbg] at h
    simp only [Option.some.injEq] at h
    subst h
    exact List.nil_subset _

theorem dropUnnamed_nodup (f : Frame) (hnd : f.colNames.Nodup) :
    (dropUnnamed f).colNames.Nodup := by
  rw [dropUnnamed, colNames_dropCols]
  exact List.Nodup.sublist (List.filter_sublist _) hnd

theorem comps_nodup (f : Frame) (comps : List String) (hnd : f.colNames.Nodup)
    (h : compsOf f = some comps) : comps.Nodup := by
  have hdnd := dropUnnamed_nodup f hnd
  simp only [compsOf] at h
  by_cases hbg : "Background" ∈ (dropUnnamed f).colNames
  · rw [if_pos hbg] at h
    cases hlast : (cyclesOf f).getLast? with
    | none => rw [hlast] at h; exact absurd h (by simp)
    | some lc =>
      rw [hlast] at h
      simp only [Option.some.injEq] at h
      subst h
      exact List.Nodup.sublist
        ((List.drop_sublist _ _).trans (List.take_sublist _ _)) hdnd
  · rw [if_neg hbg] at h
    simp only [Option.some.injEq] at h
    subst h
    exact List.nodup_nil

theorem no_true_after_last_filter (p : String → Bool) :
    ∀ (l : List String), l.Nodup → ∀ lc, (l.filter p).getLast? = some lc →
      ∀ c ∈ l.drop (l.findIdx (fun x => x == lc) + 1), p c = false := by
  intro l
  induction l with
  | nil => intro _ lc hl; simp at hl
  | cons x xs ih =>
    intro hnd lc hlast c hc
    have hx : x ∉ xs := (List.nodup_cons.1 hnd).1
    have hxsnd := (List.nodup_cons.1 hnd).2
    by_cases hpx : p x = true
    · rw [List.filter_cons_of_pos hpx] at hlast
      cases hfil : xs.filter p with
      | nil =>
        rw [hfil] at hlast
        have hxlc : x = lc := by simpa using hlast
        subst hxlc
        rw [List.findIdx_cons, show (x == x) = true from beq_self_eq_true x] at hc
        simp only [cond_true, List.drop_succ_cons, List.drop_zero] at hc
        have := List.filter_eq_nil_iff.1 hfil c hc
        exact Bool.not_eq_true _ ▸ eq_false_of_ne_true this
      | cons y ys =>
        rw [hfil, List.getLast?_cons_cons] at hlast
        have hlcmem : lc ∈ xs.filter p := by
          rw [hfil]
          exact List.mem_of_mem_getLast? (by rw [hlast]; rfl)
        have hlcxs : lc ∈ xs := (List.mem_filter.1 hlcmem).1
        have hxlc : (x == lc) = false :=
          beq_eq_false_iff_ne.2 (fun h => hx (h ▸ hlcxs))
        rw [List.findIdx_cons, hxlc] at hc
        simp only [cond_false, List.drop_succ_cons] at hc
        exact ih hxsnd lc (by rw [hfil]; exact hlast) c hc
    · simp only [Bool.not_eq_true] at hpx
      rw [List.filter_cons_of_neg (by rw [hpx]; exact Bool.false_ne_true)] at hlast
      have hlcmem : lc ∈ xs.filter p :=
        List.mem_of_mem_getLast? (by rw [hlast]; rfl)
      have hlcxs : lc ∈ xs := (List.mem_filter.1 hlcmem).1
      have hplc : p lc = true := (List.mem_filter.1 hlcmem).2
      have hxlc : (x == lc) = false :=
        beq_eq_false_iff_ne.2
          (fun h => by rw [h, hplc] at hpx; exact absurd hpx (by decide))
      rw [List.findIdx_cons, hxlc] at hc
      simp only [cond_false, List.drop_succ_cons] at hc
      exact ih hxsnd lc hlast c hc

theorem comps_not_cycle (f : Frame) (comps : List String)
    (hnd : f.colNames.Nodup) (h : compsOf f = some comps) :
    ∀ c ∈ comps, strStartsWith c "Cycle" = false := by
  intro c hcmem
  simp only [compsOf] at h
  by_cases hbg : "Background" ∈ (dropUnnamed f).colNames
  · rw [if_pos hbg] at h
    cases hlast : (cyclesOf f).getLast? with
    | none => rw [hlast] at h; exact absurd h (by simp)
    | some lc =>
      rw [hlast] at h
      simp only [Option.some.injEq] at h
      subst h
      have hdnd := dropUnnamed_nodup f hnd
      rw [List.drop_take] at hcmem
      have hcdrop : c ∈ (dropUnnamed f).colNames.drop
          ((dropUnnamed f).colNames.findIdx (fun x => x == lc) + 1) :=
        List.take_subset _ _ hcmem
      exact no_true_after_last_filter (fun s => strStartsWith s "Cycle")
        (dropUnnamed f).colNames hdnd lc hlast c hcdrop
  · rw [if_neg hbg] at h
    simp only [Option.some.injEq] at h
    subst h
    simp at hcmem

theorem findCol_isSome_of_mem (f : Frame) (c : String) (hc : c ∈ f.colNames) :
    ∃ col, f.findCol c = some col ∧ (c, col) ∈ f.columns := by
  rw [Frame.colNames] at hc
  obtain ⟨p, hp, hfst⟩ := List.mem_map.1 hc
  have hsome : (f.columns.find? (fun q => q.1 == c)).isSome = true := by
    rw [List.find?_isSome]
    exact ⟨p, hp, by rw [hfst]; exact beq_self_eq_true c⟩
  obtain ⟨q, hq⟩ := Option.isSome_iff_exists.1 hsome
  have hqmem := List.mem_of_find?_eq_some hq
  have h2 := List.find?_some hq
  have hqpred : q.1 = c := eq_of_beq h2
  refine ⟨q.2, ?_, ?_⟩
  · rw [Frame.findCol, hq]
    rfl
  · rw [← hqpred]
    exact hqmem

theorem getD_pair_mem_zip :
    ∀ (l1 l2 : List Int) (i : Nat), i < l1.length → i < l2.length →
      (l1.getD i 0, l2.getD i 0) ∈ l1.zip l2 := by
  intro l1
  induction l1 with
  | nil => intro l2 i h _; simp at h
  | cons a r1 ih =>
    intro l2 i h1 h2
    cases l2 with
    | nil => simp at h2
    | cons b r2 =>
      rw [List.zip_cons_cons]
      cases i with
      | zero =>
        rw [List.getD_cons_zero, List.getD_cons_zero]
        exact List.mem_cons_self _ _
      | succ k =>
        rw [List.getD_cons_succ, List.getD_cons_succ]
        exact List.mem_cons_of_mem _ (ih r2 k (by simpa using h1) (by simpa using h2))

theorem lookupLabel_isSome (f : Frame) (c : String) (vs : List Int) (i : Nat)
    (hfc : f.findCol c = some vs) (hi : i < f.index.length)
    (hlen : vs.length = f.index.length) :
    ∃ w, f.lookupLabel c (f.index.getD i 0) = some w := by
  simp only [Frame.lookupLabel, hfc]
  have hmem := getD_pair_mem_zip f.index vs i hi (by rw [hlen]; exact hi)
  have hfind : ((f.index.zip vs).find?
      (fun p => p.1 == f.index.getD i 0)).isSome = true := by
    rw [List.find?_isSome]
    exact ⟨_, hmem, beq_self_eq_true _⟩
  obtain ⟨pr, hpr⟩ := Option.isSome_iff_exists.1 hfind
  exact ⟨pr.2, by rw [hpr]; rfl⟩

theorem peakOf_isSome (f : Frame) (comp : String)
    (hwf : ∀ p ∈ f.columns, p.2.length = f.index.length)
    (hrows : f.index ≠ [])
    (hcomp : comp ∈ f.colNames) (hbe : "BE" ∈ f.colNames) :
    ∃ v, f.peakOf comp = some v := by
  obtain ⟨col, hcol, hcolmem⟩ := findCol_isSome_of_mem f comp hcomp
  obtain ⟨be, hbec, hbemem⟩ := findCol_isSome_of_mem f "BE" hbe
  have hcollen : col.length = f.index.length := hwf _ hcolmem
  have hbelen : be.length = f.index.length := hwf _ hbemem
  have hcolne : col ≠ [] := by
    intro h
    rw [h] at hcollen
    exact hrows (List.length_eq_zero.1 hcollen.symm)
  obtain ⟨i, hfm, hilen, _, _⟩ := firstMaxIdx_spec col hcolne
  have hi2 : i < f.index.length := by rw [← hcollen]; exact hilen
  have hidx := get_index_some f.index i hi2
  obtain ⟨x, hx⟩ := lookupLabel_isSome f "BE" be i hbec hi2 hbelen
  obtain ⟨y, hy⟩ := lookupLabel_isSome f comp col i hcol hi2 hcollen
  exact ⟨(x, y), by simp only [Frame.peakOf, hcol, hfm, hidx, hx, hy]⟩

theorem insertKV_fresh (d : List (String × Int × Int)) (k : String) (v : Int × Int)
    (h : ¬ k ∈ d.map Prod.fst) : insertKV d k v = d ++ [(k, v)] := by
  rw [insertKV, if_neg]
  intro hany
  rw [List.any_eq_true] at hany
  obtain ⟨p, hp, hpk⟩ := hany
  exact h (List.mem_map.2 ⟨p, hp, eq_of_beq hpk⟩)

theorem peaks_foldl_keys (cd : CasaData) :
    ∀ (C : List String) (d0 : List (String × Int × Int)),
      (∀ c ∈ C, ∃ v, cd.data.peakOf c = some v) →
      (∀ c ∈ C, ¬ c ∈ d0.map Prod.fst) → C.Nodup →
      ∃ d, List.foldl (peakStep cd) (some d0) C = some d ∧
        d.map Prod.fst = d0.map Prod.fst ++ C := by
  intro C
  induction C with
  | nil => intro d0 _ _ _; exact ⟨d0, rfl, by simp⟩
  | cons c C2 ih =>
    intro d0 hsome hfresh hnd
    obtain ⟨v, hv⟩ := hsome c (List.mem_cons_self _ _)
    rw [List.foldl_cons]
    have hstep : peakStep cd (some d0) c = some (d0 ++ [(c, v)]) := by
      show (match (some d0 : Option (List (String × Int × Int))), cd.data.peakOf c with
        | some d, some v => some (insertKV d c v)
        | _, _ => none) = _
      rw [hv]
      show some (insertKV d0 c v) = _
      rw [insertKV_fresh d0 c v (hfresh c (List.mem_cons_self _ _))]
    rw [hstep]
    have hfresh2 : ∀ x ∈ C2, ¬ x ∈ (d0 ++ [(c, v)]).map Prod.fst := by
      intro x hx hmem
      rw [List.map_append] at hmem
      rcases List.mem_append.1 hmem with hm | hm
      · exact hfresh x (List.mem_cons_of_mem _ hx) hm
      · simp only [List.map_cons, List.map_nil, List.mem_singleton] at hm
        subst hm
        exact (List.nodup_cons.1 hnd).1 hx
    obtain ⟨d, hd, hkeys⟩ := ih (d0 ++ [(c, v)])
      (fun x hx => hsome x (List.mem_cons_of_mem _ hx)) hfresh2 (List.nodup_cons.1 hnd).2
    refine ⟨d, hd, ?_⟩
    rw [hkeys, List.map_append]
    simp

theorem mem_dropUnnamed_of_mem (f : Frame) (c : String)
    (hc : c ∈ f.colNames) (hun : strStartsWith c "Unnamed:" = false) :
    c ∈ (dropUnnamed f).colNames := by
  have hnotmem : c ∉ unnamedCols f := by
    intro hm
    have h2 := (List.mem_filter.1 hm).2
    rw [hun] at h2
    exact absurd h2 (by decide)
  have hcont : (unnamedCols f).contains c = false := by
    rcases Bool.eq_false_or_eq_true ((unnamedCols f).contains c) with h | h
    · exact absurd (List.elem_iff.1 h) hnotmem
    · exact h
  rw [dropUnnamed, colNames_dropCols]
  refine List.mem_filter.2 ⟨hc, ?_⟩
  rw [hcont]
  rfl

theorem mem_beRenamed_of_ne (f1 : Frame) (c : String)
    (hc : c ∈ f1.colNames) (hne : c ≠ "B.E.") :
    c ∈ (f1.renameCols [("B.E.", "BE")]).colNames := by
  rw [colNames_renameCols]
  refine List.mem_map.2 ⟨c, hc, ?_⟩
  rw [applyRen_single, if_neg (fun h => hne h.symm)]

theorem beMem_beRenamed (f1 : Frame) (hc : "B.E." ∈ f1.colNames) :
    "BE" ∈ (f1.renameCols [("B.E.", "BE")]).colNames := by
  rw [colNames_renameCols]
  refine List.mem_map.2 ⟨"B.E.", hc, ?_⟩
  rw [applyRen_single, if_pos rfl]

theorem wf_renameCols (f1 : Frame) (d : List (String × String))
    (hwf : ∀ p ∈ f1.columns, p.2.length = f1.index.length) :
    ∀ p ∈ (f1.renameCols d).columns, p.2.length = (f1.renameCols d).index.length := by
  intro p hp
  obtain ⟨q, hq, hqe⟩ := List.mem_map.1 hp
  rw [← hqe]
  exact hwf q hq

theorem applyRen_auto_id_of_not_cycle (cyc : List String) (c : String)
    (hcyc : ∀ k ∈ cyc, strStartsWith k "Cycle" = true)
    (hc : strStartsWith c "Cycle" = false) :
    applyRen (autoAssign cyc 0 ++ []) c = c := by
  rw [List.append_nil]
  apply applyRen_of_nokey
  intro p hp hpc
  have hk := (mem_autoAssign_parts cyc 0 p hp).1
  have h2 := hcyc p.1 hk
  rw [hpc, hc] at h2
  exact absurd h2 (by decide)

/-- **C1.**  For a `CasaData` constructed from a well-formed frame — distinct
column labels, a `B.E.` column, at least one row, equal column lengths, and
components that do not include the `B.E.` label (the export format puts
`B.E.` before the cycle columns) — `peaks` succeeds and returns a mapping
whose keys are exactly the component list in order, every key being a
column label of the (renamed) data table. -/
theorem peaks_one_entry_per_component (f : Frame) (ren : Bool) (cd : CasaData)
    (hmk : mkCasaData f ren = some cd)
    (hnd : f.colNames.Nodup)
    (hbein : "B.E." ∈ f.colNames)
    (hbec : "B.E." ∉ cd.components)
    (hrows : f.index ≠ [])
    (hwf : ∀ p ∈ f.columns, p.2.length = f.index.length) :
    ∃ d, cd.peaks = some d ∧ d.map Prod.fst = cd.components ∧
      ∀ c ∈ cd.components, c ∈ cd.data.colNames := by
  cases hcmp : compsOf f with
  | none =>
    unfold mkCasaData at hmk
    rw [hcmp] at hmk
    exact absurd hmk (by simp)
  | some comps =>
    unfold mkCasaData at hmk
    rw [hcmp] at hmk
    have hsub := comps_subset f comps hcmp
    have hcompnd := comps_nodup f comps hnd hcmp
    have hnocyc := comps_not_cycle f comps hnd hcmp
    have hwf1 : ∀ p ∈ (dropUnnamed f).columns,
        p.2.length = (dropUnnamed f).index.length := by
      intro p hp
      exact hwf p (List.mem_of_mem_filter hp)
    have hBE1 : "B.E." ∈ (dropUnnamed f).colNames :=
      mem_dropUnnamed_of_mem f "B.E." hbein (by decide)
    have hBE2 := beMem_beRenamed (dropUnnamed f) hBE1
    have hwf2 := wf_renameCols (dropUnnamed f) [("B.E.", "BE")] hwf1
    have hcyc : ∀ k ∈ cyclesOf f, strStartsWith k "Cycle" = true :=
      fun k hk => (List.mem_filter.1 hk).2
    cases ren with
    | false =>
      have h2 : some { data := (dropUnnamed f).renameCols [("B.E.", "BE")],
                       cycles := cyclesOf f, components := comps } = some cd := hmk
      have hcd := (Option.some.inj h2).symm
      subst hcd
      have hbec2 : "B.E." ∉ comps := hbec
      have hcomps2 : ∀ c ∈ comps,
          c ∈ ((dropUnnamed f).renameCols [("B.E.", "BE")]).colNames :=
        fun c hc => mem_beRenamed_of_ne _ c (hsub hc) (fun he => hbec2 (he ▸ hc))
      have hpk : ∀ c ∈ comps,
          ∃ v, ((dropUnnamed f).renameCols [("B.E.", "BE")]).peakOf c = some v :=
        fun c hc => peakOf_isSome _ c hwf2 hrows (hcomps2 c hc) hBE2
      obtain ⟨d, hd, hkeys⟩ :=
        peaks_foldl_keys
          { data := (dropUnnamed f).renameCols [("B.E.", "BE")],
            cycles := cyclesOf f, components := comps } comps [] hpk (by simp) hcompnd
      refine ⟨d, ?_, ?_, ?_⟩
      · rw [CasaData.peaks]
        exact hd
      · rw [hkeys]
        simp
      · intro c hc
        exact hcomps2 c hc
    | true =>
      have h2 : some { data := ((dropUnnamed f).renameCols [("B.E.", "BE")]).renameCols
                         (autoAssign (cyclesOf f) 0 ++ []),
                       cycles := (List.range (cyclesOf f).length).map cycleName,
                       components := comps } = some cd := hmk
      have hcd := (Option.some.inj h2).symm
      subst hcd
      have hbec2 : "B.E." ∉ comps := hbec
      have hcomps2 : ∀ c ∈ comps,
          c ∈ ((dropUnnamed f).renameCols [("B.E.", "BE")]).colNames :=
        fun c hc => mem_beRenamed_of_ne _ c (hsub hc) (fun he => hbec2 (he ▸ hc))
      have hcomps3 : ∀ c ∈ comps,
          c ∈ (((dropUnnamed f).renameCols [("B.E.", "BE")]).renameCols
            (autoAssign (cyclesOf f) 0 ++ [])).colNames := by
        intro c hc
        rw [colNames_renameCols]
        exact List.mem_map.2 ⟨c, hcomps2 c hc,
          applyRen_auto_id_of_not_cycle (cyclesOf f) c hcyc (hnocyc c hc)⟩
      have hBE3 : "BE" ∈ (((dropUnnamed f).renameCols [("B.E.", "BE")]).renameCols
          (autoAssign (cyclesOf f) 0 ++ [])).colNames := by
        rw [colNames_renameCols]
        exact List.mem_map.2 ⟨"BE", hBE2,
          applyRen_auto_id_of_not_cycle (cyclesOf f) "BE" hcyc (by decide)⟩
      have hwf3 := wf_renameCols ((dropUnnamed f).renameCols [("B.E.", "BE")])
        (autoAssign (cyclesOf f) 0 ++ []) hwf2
      have hpk : ∀ c ∈ comps,
          ∃ v, (((dropUnnamed f).renameCols [("B.E.", "BE")]).renameCols
            (autoAssign (cyclesOf f) 0 ++ [])).peakOf c = some v :=
        fun c hc => peakOf_isSome _ c hwf3 hrows (hcomps3 c hc) hBE3
      obtain ⟨d, hd, hkeys⟩ :=
        peaks_foldl_keys
          { data := ((dropUnnamed f).renameCols [("B.E.", "BE")]).renameCols
              (autoAssign (cyclesOf f) 0 ++ []),
            cycles := (List.range (cyclesOf f).length).map cycleName,
            components := comps } comps [] hpk (by simp) hcompnd
      refine ⟨d, ?_, ?_, ?_⟩
      · rw [CasaData.peaks]
        exact hd
      · rw [hkeys]
        simp
      · intro c hc
        exact hcomps3 c hc

/-- Concrete witness for `peaks_one_entry_per_component`. -/
theorem peaks_one_entry_per_component_witness :
    mkCasaData exRawFrame true = some exCasa ∧
      ∃ d, exCasa.peaks = some d ∧ d.map Prod.fst = exCasa.components ∧
        ∀ c ∈ exCasa.components, c ∈ exCasa.data.colNames :=
  ⟨by decide, peaks_one_entry_per_component exRawFrame true exCasa (by decide) (by decide)
    (by decide) (by decide) (by decide) (by decide)⟩
